import Mathlib

/-!
Verification of the `hmap` sharded string-keyed map (Go package `hmap`,
files `src/hmap.go` and `src/unnamed/part_000`).

Shallow embedding conventions:
* A Go `map[string]V` shard is modelled as an association list
  `List (String × V)` with at most one binding per key in well-formed maps
  (`Map.WF`); `mapLookup`, `mapAssign`, `mapErase` model Go map read,
  write and `delete`.
* `maphash.String(seed, key)` is an arbitrary function `hash : String → Nat`
  carried in the `Map` structure; its `uint64` type is modelled by reducing
  modulo `2 ^ 64` where the value is consumed (`getIndex`).
* Go map iteration order is unspecified; the model iterates each shard's
  association list in list order.
* Locks are concurrency control with no sequential semantics; the sequential
  model elides them.  Methods that mutate the receiver return the new `Map`;
  the read-only method `GetWithDefault` and the iteration method `Range`
  return the receiver unchanged as their post-state.
-/

namespace HMap

/-- Go map read `v, ok := d[k]`, modelled on an association list. -/
def mapLookup {V : Type} (d : List (String × V)) (k : String) : Option V :=
  match d with
  | [] => none
  | (k2, v) :: rest => if k2 = k then some v else mapLookup rest k

/-- Go map write `d[k] = v`: overwrite the binding of `k` if present,
otherwise append a fresh binding. -/
def mapAssign {V : Type} (d : List (String × V)) (k : String) (v : V) :
    List (String × V) :=
  match d with
  | [] => [(k, v)]
  | (k2, v2) :: rest =>
    if k2 = k then (k, v) :: rest else (k2, v2) :: mapAssign rest k v

/-- Go `delete(d, k)`: remove the binding of `k` (the first one; well-formed
shards have at most one). -/
def mapErase {V : Type} (d : List (String × V)) (k : String) :
    List (String × V) :=
  match d with
  | [] => []
  | (k2, v2) :: rest =>
    if k2 = k then rest else (k2, v2) :: mapErase rest k

/-- `src/hmap.go` line 10: `defaultShardCount = 1 << 6`. -/
def defaultShardCount : Nat := 64

/-- `src/hmap.go` lines 34-40: the bit-smearing rounding of `n` up to
`2 ^ k - 1` form.  After the guards in `trueShards` the argument is in
`[0, 2 ^ 16 - 1]`, where Go's signed-int `|=` and `>>` agree with `Nat`'s. -/
def smear5 (n0 : Nat) : Nat :=
  let n1 := n0 ||| (n0 >>> 1)
  let n2 := n1 ||| (n1 >>> 2)
  let n3 := n2 ||| (n2 >>> 4)
  let n4 := n3 ||| (n3 >>> 8)
  let n5 := n4 ||| (n4 >>> 16)
  n5

/-- `src/hmap.go` lines 26-41 (`trueShards`): clamp to `[1, 65536]` and round
up to the next power of two.  The Go parameter is a 64-bit `int`, modelled
as `Int`. -/
def trueShards (shardCount : Int) : Nat :=
  if shardCount < 1 then 1
  else if shardCount > 65536 then 65536
  else smear5 (shardCount - 1).toNat + 1

/-- The `Map` of `src/hmap.go` lines 21-24: a fixed list of shards (each an
association list standing for the shard's `map[string]V`) plus the seeded
hash function (the seed is baked into `hash`). -/
structure Map (V : Type) where
  datas : List (List (String × V))
  hash : String → Nat

/-- `src/hmap.go` lines 43-60 (`New`): the variadic `inShardCount` is a list;
an empty list is the omitted argument. -/
def New (V : Type) (hash : String → Nat) (inShardCount : List Int) : Map V :=
  let shardCount :=
    match inShardCount with
    | [] => defaultShardCount
    | c :: _ => trueShards c
  { datas := List.replicate shardCount [], hash := hash }

/-- `src/hmap.go` lines 62-65 (`getIndex`):
`int(maphash.String(seed, key) & uint64(len(datas)-1))`. -/
def Map.getIndex {V : Type} (m : Map V) (key : String) : Nat :=
  (m.hash key % 2 ^ 64) &&& (m.datas.length - 1)

/-- The shard `m.datas[index]` for `index := getIndex key`. -/
def Map.shardOf {V : Type} (m : Map V) (key : String) : List (String × V) :=
  m.datas.getD (m.getIndex key) []

/-- `src/hmap.go` lines 67-72 (`Set`). -/
def Map.Set {V : Type} (m : Map V) (key : String) (value : V) : Map V :=
  let index := m.getIndex key
  { m with datas := m.datas.set index (mapAssign (m.datas.getD index []) key value) }

/-- `src/hmap.go` lines 74-83 (`SetWithNotExist`): returns the post-state
together with the Go results `(V, bool)`. -/
def Map.SetWithNotExist {V : Type} (m : Map V) (key : String) (value : V) :
    Map V × V × Bool :=
  let index := m.getIndex key
  let d := m.datas.getD index []
  match mapLookup d key with
  | some val => (m, val, false)
  | none => ({ m with datas := m.datas.set index (mapAssign d key value) }, value, true)

/-- `src/hmap.go` lines 85-91 (`Get`); the zero value of `V` is `default`. -/
def Map.Get {V : Type} [Inhabited V] (m : Map V) (key : String) : V × Bool :=
  match mapLookup (m.shardOf key) key with
  | some v => (v, true)
  | none => (default, false)

/-- `src/hmap.go` lines 93-102 (`GetWithDefault`): the body only reads, so
the post-state component is the receiver itself. -/
def Map.GetWithDefault {V : Type} (m : Map V) (key : String) (defaultValue : V) :
    (V × Bool) × Map V :=
  match mapLookup (m.shardOf key) key with
  | some v => ((v, true), m)
  | none => ((defaultValue, false), m)

/-- `src/hmap.go` lines 104-115 (`Delete`). -/
def Map.Delete {V : Type} (m : Map V) (key : String) : Map V × Bool :=
  let index := m.getIndex key
  let d := m.datas.getD index []
  match mapLookup d key with
  | none => (m, false)
  | some _ => ({ m with datas := m.datas.set index (mapErase d key) }, true)

/-- `src/hmap.go` lines 119-133 (`DeleteIf`). -/
def Map.DeleteIf {V : Type} (m : Map V) (key : String) (delIf : V → Bool) :
    Map V × Bool :=
  let index := m.getIndex key
  let d := m.datas.getD index []
  match mapLookup d key with
  | none => (m, false)
  | some val =>
    if delIf val then ({ m with datas := m.datas.set index (mapErase d key) }, true)
    else (m, false)

/-- The post-state shared by `Delete` and `DeleteIf` when they do remove the
entry: the key's shard with the key's binding erased. -/
def Map.eraseShard {V : Type} (m : Map V) (key : String) : Map V :=
  let index := m.getIndex key
  { m with datas := m.datas.set index (mapErase (m.datas.getD index []) key) }

/-- `src/hmap.go` lines 135-145 (`Len`): accumulate shard sizes in order. -/
def Map.Len {V : Type} (m : Map V) : Nat :=
  m.datas.foldl (fun count d => count + d.length) 0

/-- `src/hmap.go` lines 219-221 (`ShardCount`). -/
def Map.ShardCount {V : Type} (m : Map V) : Nat :=
  m.datas.length

/-- All entries of the map, shard by shard in table order. -/
def Map.entries {V : Type} (m : Map V) : List (String × V) :=
  m.datas.flatten

/-- The inner loop of `Range` (`src/hmap.go` lines 176-180) on one shard
snapshot: the list of entries the visitor is invoked on, and whether the
visitor returned `false` (stopping the whole iteration). -/
def visitShard {V : Type} (f : String → V → Bool) :
    List (String × V) → List (String × V) × Bool
  | [] => ([], false)
  | (k, v) :: rest =>
    if f k v then
      let r := visitShard f rest
      ((k, v) :: r.1, r.2)
    else ([(k, v)], true)

/-- The shard loop of `Range` (`src/hmap.go` lines 171-181). -/
def rangeShards {V : Type} (f : String → V → Bool) :
    List (List (String × V)) → List (String × V)
  | [] => []
  | d :: ds =>
    let r := visitShard f d
    if r.2 then r.1 else r.1 ++ rangeShards f ds

/-- `src/hmap.go` lines 170-182 (`Range`): result is the trace of entries the
visitor is invoked on, paired with the post-state; the body never writes a
shard, so the post-state is the receiver. -/
def Map.Range {V : Type} (m : Map V) (f : String → V → Bool) :
    List (String × V) × Map V :=
  (rangeShards f m.datas, m)

/-- The inner loop of `Prune` (`src/hmap.go` lines 198-209) on one shard:
returns the shard contents after the pass, the number of deletions, the
number of retentions, and the error (if the predicate signalled one).  The
Go predicate returns `(bool, error)`, modelled as `Bool × Option E`. -/
def pruneShard {V E : Type} (f : String → V → Bool × Option E) :
    List (String × V) → List (String × V) × Nat × Nat × Option E
  | [] => ([], 0, 0, none)
  | (k, v) :: rest =>
    match f k v with
    | (_, some e) => ((k, v) :: rest, 0, 0, some e)
    | (true, none) =>
      let r := pruneShard f rest
      (r.1, r.2.1 + 1, r.2.2.1, r.2.2.2)
    | (false, none) =>
      let r := pruneShard f rest
      ((k, v) :: r.1, r.2.1, r.2.2.1 + 1, r.2.2.2)

/-- The shard loop of `Prune` (`src/hmap.go` lines 194-215): an error from a
shard pass returns at once, leaving the later shards untouched. -/
def pruneShards {V E : Type} (f : String → V → Bool × Option E) :
    List (List (String × V)) → List (List (String × V)) × Nat × Nat × Option E
  | [] => ([], 0, 0, none)
  | d :: ds =>
    let r := pruneShard f d
    match r.2.2.2 with
    | some e => (r.1 :: ds, r.2.1, r.2.2.1, some e)
    | none =>
      let rs := pruneShards f ds
      (r.1 :: rs.1, r.2.1 + rs.2.1, r.2.2.1 + rs.2.2.1, rs.2.2.2)

/-- `src/hmap.go` lines 191-217 (`Prune`). -/
def Map.Prune {V E : Type} (m : Map V) (f : String → V → Bool × Option E) :
    Map V × Nat × Nat × Option E :=
  let r := pruneShards f m.datas
  ({ m with datas := r.1 }, r.2.1, r.2.2.1, r.2.2.2)

/-- Well-formedness of a `Map`, as established by `New` and preserved by every
operation: at least one shard, no duplicate key inside a shard, and every
entry lives in the shard its key hashes to. -/
def Map.WF {V : Type} (m : Map V) : Prop :=
  0 < m.datas.length ∧
    ∀ i < m.datas.length,
      ((m.datas.getD i []).map Prod.fst).Nodup ∧
        ∀ p ∈ m.datas.getD i [], m.getIndex p.1 = i

instance {V : Type} (m : Map V) : Decidable m.WF := by
  unfold Map.WF
  infer_instance

namespace V0

/-- `src/unnamed/part_000` line 10: `defaultShardCount = 1 << 5`. -/
def defaultShardCount : Nat := 32

/-- `src/unnamed/part_000` lines 41-62 (`New`); `trueShards` there
(lines 24-39) is identical to the one in `src/hmap.go`. -/
def New (V : Type) (hash : String → Nat) (inShardCount : List Int) : Map V :=
  let shardCount :=
    match inShardCount with
    | [] => defaultShardCount
    | c :: _ => trueShards c
  { datas := List.replicate shardCount [], hash := hash }

/-- `src/unnamed/part_000` lines 64-71 (`getIndex`): the pooled
`maphash.Hash` seeded with `m.seed` and fed `key` computes
`maphash.String(seed, key)`, then masks with `len(maps) - 1`. -/
def getIndex {V : Type} (m : Map V) (key : String) : Nat :=
  (m.hash key % 2 ^ 64) &&& (m.datas.length - 1)

/-- `src/unnamed/part_000` lines 102-111 (`Get`): the variadic
`defaultValue ...V` is a list; the fallback is used only when present and
the key is absent, and nothing is written back. -/
def Get {V : Type} [Inhabited V] (m : Map V) (key : String)
    (defaultValue : List V) : V × Bool :=
  let d := m.datas.getD (getIndex m key) []
  match mapLookup d key with
  | some v => (v, true)
  | none =>
    match defaultValue with
    | dv :: _ => (dv, false)
    | [] => (default, false)

end V0

/-- A point operation on the map, used to express "no intervening mutation of
a key": every mutating point operation of `src/hmap.go`. -/
inductive Op (V : Type) where
  | set (k : String) (v : V)
  | setWithNotExist (k : String) (v : V)
  | del (k : String)
  | delIf (k : String) (p : V → Bool)

/-- Run a point operation, keeping only the post-state. -/
def applyOp {V : Type} (m : Map V) : Op V → Map V
  | .set k v => m.Set k v
  | .setWithNotExist k v => (m.SetWithNotExist k v).1
  | .del k => (m.Delete k).1
  | .delIf k p => (m.DeleteIf k p).1

/-- Whether a point operation targets the given key (and so may mutate it). -/
def Op.touches {V : Type} (op : Op V) (key : String) : Bool :=
  match op with
  | .set k _ => k = key
  | .setWithNotExist k _ => k = key
  | .del k => k = key
  | .delIf k _ => k = key

/-- The spec's wording of the shard count ("the smallest power of two ≥ the
request, clamped to [1, 65536]"), written independently of the source's bit
trick, for comparison with `trueShards`: `2 ^ Nat.clog 2 t` is the least
power of two at least `t`. -/
def specShardCount (x : Int) : Nat :=
  if x < 1 then 1
  else if x > 65536 then 65536
  else 2 ^ Nat.clog 2 x.toNat

section AssocLemmas

variable {V : Type}

theorem mapLookup_assign_self (d : List (String × V)) (k : String) (v : V) :
    mapLookup (mapAssign d k v) k = some v := by
  induction d with
  | nil => simp [mapAssign, mapLookup]
  | cons p rest ih =>
    obtain ⟨k2, v2⟩ := p
    by_cases h : k2 = k
    · simp [mapAssign, mapLookup, h]
    · simp [mapAssign, mapLookup, h, ih]

theorem mapLookup_assign_ne {k2 k : String} (d : List (String × V)) (v : V)
    (h : k2 ≠ k) : mapLookup (mapAssign d k2 v) k = mapLookup d k := by
  induction d with
  | nil => simp [mapAssign, mapLookup, h]
  | cons p rest ih =>
    obtain ⟨k3, v3⟩ := p
    by_cases h3 : k3 = k2
    · subst h3
      simp [mapAssign, mapLookup, h]
    · by_cases h4 : k3 = k <;>
        simp [mapAssign, mapLookup, h3, h4, Ne.symm h, ih]

theorem mapLookup_erase_ne {k2 k : String} (d : List (String × V))
    (h : k2 ≠ k) : mapLookup (mapErase d k2) k = mapLookup d k := by
  induction d with
  | nil => simp [mapErase, mapLookup]
  | cons p rest ih =>
    obtain ⟨k3, v3⟩ := p
    by_cases h3 : k3 = k2
    · subst h3
      simp [mapErase, mapLookup, h]
    · by_cases h4 : k3 = k <;>
        simp [mapErase, mapLookup, h3, h4, Ne.symm h, ih]

/-- Erasing a key makes it unfindable, provided the shard has no duplicate
keys. -/
theorem mapLookup_erase_self (d : List (String × V)) (k : String)
    (hnd : (d.map Prod.fst).Nodup) : mapLookup (mapErase d k) k = none := by
  induction d with
  | nil => simp [mapErase, mapLookup]
  | cons p rest ih =>
    obtain ⟨k2, v2⟩ := p
    simp only [List.map_cons, List.nodup_cons] at hnd
    by_cases h : k2 = k
    · subst h
      simp only [mapErase, if_pos rfl]
      -- `k2 ∉ rest.map fst`, so the lookup in `rest` fails
      clear ih
      induction rest with
      | nil => simp [mapLookup]
      | cons q rest2 ih2 =>
        obtain ⟨k3, v3⟩ := q
        simp only [List.map_cons, List.mem_cons, List.nodup_cons] at hnd
        have hk3 : k3 ≠ k2 := fun hc => hnd.1 (Or.inl hc.symm)
        simp only [mapLookup, if_neg hk3]
        exact ih2 ⟨fun hc => hnd.1 (Or.inr hc), hnd.2.2⟩
    · simp only [mapErase, if_neg h, mapLookup, if_neg h]
      exact ih hnd.2

theorem length_mapErase_of_mem (d : List (String × V)) (k : String) (v : V)
    (hmem : mapLookup d k = some v) :
    (mapErase d k).length + 1 = d.length := by
  induction d with
  | nil => simp [mapLookup] at hmem
  | cons p rest ih =>
    obtain ⟨k2, v2⟩ := p
    by_cases h : k2 = k
    · simp [mapErase, h]
    · simp only [mapLookup, if_neg h] at hmem
      simp [mapErase, h, ih hmem]

end AssocLemmas

section MapFrame

variable {V : Type}

/-- Updating one shard position in a way that preserves the lookup of `key`
preserves `Get key`. -/
theorem Get_datasSet [Inhabited V] (m : Map V) (idx : Nat)
    (nd : List (String × V)) (key : String)
    (hlook : mapLookup nd key = mapLookup (m.datas.getD idx []) key) :
    ({ m with datas := m.datas.set idx nd } : Map V).Get key = m.Get key := by
  have hidx : ({ m with datas := m.datas.set idx nd } : Map V).getIndex key
      = m.getIndex key := by
    simp [Map.getIndex]
  unfold Map.Get Map.shardOf
  rw [hidx]
  by_cases hlt : idx < m.datas.length
  · by_cases heq : m.getIndex key = idx
    · subst heq
      rw [show (m.datas.set (m.getIndex key) nd).getD (m.getIndex key) []
            = nd by simp [List.getD_eq_getElem?_getD, List.getElem?_set_self hlt]]
      rw [hlook]
    · rw [show (m.datas.set idx nd).getD (m.getIndex key) []
            = m.datas.getD (m.getIndex key) [] by
          simp [List.getD_eq_getElem?_getD,
            List.getElem?_set_ne (fun hc => heq hc.symm)]]
  · rw [List.set_eq_of_length_le (Nat.le_of_not_lt hlt)]

/-- Every point operation preserves the shard count. -/
theorem length_applyOp (m : Map V) (op : Op V) :
    (applyOp m op).datas.length = m.datas.length := by
  cases op with
  | set k v => simp [applyOp, Map.Set]
  | setWithNotExist k v =>
    simp only [applyOp, Map.SetWithNotExist]
    split <;> simp
  | del k =>
    simp only [applyOp, Map.Delete]
    split <;> simp
  | delIf k p =>
    simp only [applyOp, Map.DeleteIf]
    split
    · simp
    · split <;> simp

/-- A point operation on a different key does not change `Get key`. -/
theorem Get_applyOp_of_not_touches [Inhabited V] (m : Map V) (op : Op V)
    (key : String) (hop : op.touches key = false) :
    (applyOp m op).Get key = m.Get key := by
  cases op with
  | set k v =>
    have hk : k ≠ key := by simpa [Op.touches] using hop
    exact Get_datasSet m _ _ key (mapLookup_assign_ne _ _ hk)
  | setWithNotExist k v =>
    have hk : k ≠ key := by simpa [Op.touches] using hop
    simp only [applyOp, Map.SetWithNotExist]
    split
    · rfl
    · exact Get_datasSet m _ _ key (mapLookup_assign_ne _ _ hk)
  | del k =>
    have hk : k ≠ key := by simpa [Op.touches] using hop
    simp only [applyOp, Map.Delete]
    split
    · rfl
    · exact Get_datasSet m _ _ key (mapLookup_erase_ne _ hk)
  | delIf k p =>
    have hk : k ≠ key := by simpa [Op.touches] using hop
    simp only [applyOp, Map.DeleteIf]
    split
    · rfl
    · split
      · exact Get_datasSet m _ _ key (mapLookup_erase_ne _ hk)
      · rfl

theorem Get_foldl_of_not_touches [Inhabited V] (key : String) :
    ∀ (ops : List (Op V)) (m : Map V),
      (∀ op ∈ ops, op.touches key = false) →
      (ops.foldl applyOp m).Get key = m.Get key := by
  intro ops
  induction ops with
  | nil => intro m _; rfl
  | cons op rest ih =>
    intro m hops
    rw [List.foldl_cons, ih (applyOp m op) fun o ho => hops o (List.mem_cons_of_mem _ ho),
      Get_applyOp_of_not_touches m op key (hops op (List.mem_cons_self op rest))]

/-- The shard index of a key is in bounds whenever the map has a shard. -/
theorem getIndex_lt_length (m : Map V) (key : String)
    (hlen : 0 < m.datas.length) : m.getIndex key < m.datas.length :=
  Nat.lt_of_le_of_lt Nat.and_le_right (Nat.sub_lt hlen Nat.one_pos)

/-- `Set` followed by `Get` of the same key finds the value just written. -/
theorem Get_Set_self [Inhabited V] (m : Map V) (k : String) (v : V)
    (hlen : 0 < m.datas.length) : (m.Set k v).Get k = (v, true) := by
  have hidx : (m.Set k v).getIndex k = m.getIndex k := by
    simp [Map.getIndex, Map.Set]
  unfold Map.Get Map.shardOf
  rw [hidx]
  unfold Map.Set
  rw [show (m.datas.set (m.getIndex k)
        (mapAssign (m.datas.getD (m.getIndex k) []) k v)).getD (m.getIndex k) []
      = mapAssign (m.datas.getD (m.getIndex k) []) k v by
    simp [List.getD_eq_getElem?_getD,
      List.getElem?_set_self (getIndex_lt_length m k hlen)]]
  rw [mapLookup_assign_self]

end MapFrame

/-- **C1.** After `Set(k, v)` on a map with at least one shard (as every map
built by `New` has), running any sequence of point operations that do not
target `k` and then `Get(k)` returns `(v, true)`. -/
theorem get_after_set_no_intervening_mutation {V : Type} [Inhabited V]
    (m : Map V) (k : String) (v : V) (ops : List (Op V))
    (hlen : 0 < m.datas.length)
    (hops : ∀ op ∈ ops, op.touches k = false) :
    (ops.foldl applyOp (m.Set k v)).Get k = (v, true) := by
  rw [Get_foldl_of_not_touches k ops (m.Set k v) hops, Get_Set_self m k v hlen]

/-- Witness for **C1**: on a one-shard map, `Set "a" 1`, then `Set "b" 2` and
`Delete "c"` (neither touching `"a"`), then `Get "a"` yields `(1, true)`. -/
theorem get_after_set_no_intervening_mutation_witness :
    0 < (New Nat (fun s => s.length) [1]).datas.length ∧
    (∀ op ∈ ([Op.set "b" 2, Op.del "c"] : List (Op Nat)), op.touches "a" = false) ∧
    (([Op.set "b" 2, Op.del "c"] : List (Op Nat)).foldl applyOp
        ((New Nat (fun s => s.length) [1]).Set "a" 1)).Get "a" = (1, true) :=
  ⟨by decide, by decide,
    get_after_set_no_intervening_mutation (New Nat (fun s => s.length) [1])
      "a" 1 [Op.set "b" 2, Op.del "c"] (by decide) (by decide)⟩

section PointOps

variable {V : Type}

theorem Get_eq_true_iff [Inhabited V] (m : Map V) (k : String) (old : V) :
    m.Get k = (old, true) ↔
      mapLookup (m.datas.getD (m.getIndex k) []) k = some old := by
  unfold Map.Get Map.shardOf
  cases h : mapLookup (m.datas.getD (m.getIndex k) []) k <;> simp

theorem Get_false_iff [Inhabited V] (m : Map V) (k : String) :
    (m.Get k).2 = false ↔
      mapLookup (m.datas.getD (m.getIndex k) []) k = none := by
  unfold Map.Get Map.shardOf
  cases h : mapLookup (m.datas.getD (m.getIndex k) []) k <;> simp

theorem setWithNotExist_of_present [Inhabited V] (m : Map V) (k : String)
    (old v : V) (h : mapLookup (m.datas.getD (m.getIndex k) []) k = some old) :
    m.SetWithNotExist k v = (m, old, false) := by
  simp only [Map.SetWithNotExist, h]

theorem setWithNotExist_of_absent [Inhabited V] (m : Map V) (k : String)
    (v : V) (h : mapLookup (m.datas.getD (m.getIndex k) []) k = none) :
    m.SetWithNotExist k v = (m.Set k v, v, true) := by
  simp only [Map.SetWithNotExist, Map.Set, h]

/-- `Get` on a map whose shard for `key` was replaced by `nd`. -/
theorem Get_datasSet_self [Inhabited V] (m : Map V) (nd : List (String × V))
    (key : String) (hlen : 0 < m.datas.length) :
    ({ m with datas := m.datas.set (m.getIndex key) nd } : Map V).Get key
      = (match mapLookup nd key with
          | some v => (v, true)
          | none => (default, false)) := by
  have hidx : ({ m with datas := m.datas.set (m.getIndex key) nd } : Map V).getIndex key
      = m.getIndex key := by
    simp [Map.getIndex]
  unfold Map.Get Map.shardOf
  rw [hidx]
  rw [show (m.datas.set (m.getIndex key) nd).getD (m.getIndex key) [] = nd by
    simp [List.getD_eq_getElem?_getD,
      List.getElem?_set_self (getIndex_lt_length m key hlen)]]

end PointOps

/-- **C2.** `SetWithNotExist(k, v)` on a present key returns the existing
value with `false` and leaves the map untouched; on an absent key it inserts
and returns the new value with `true`.  In particular, two successive
`SetWithNotExist` calls on the same absent key have the second return
`(v1, false)` and `Get` still yields `v1`. -/
theorem setWithNotExist_check_then_insert {V : Type} [Inhabited V]
    (m : Map V) (k : String) (old v v1 v2 : V) (hlen : 0 < m.datas.length) :
    (m.Get k = (old, true) → m.SetWithNotExist k v = (m, old, false))
    ∧ ((m.Get k).2 = false →
        (m.SetWithNotExist k v1).2 = (v1, true)
        ∧ (m.SetWithNotExist k v1).1.Get k = (v1, true)
        ∧ (v1 ≠ v2 →
            (m.SetWithNotExist k v1).1.SetWithNotExist k v2
              = ((m.SetWithNotExist k v1).1, v1, false)
            ∧ ((m.SetWithNotExist k v1).1.SetWithNotExist k v2).1.Get k
              = (v1, true))) := by
  constructor
  · intro hpres
    exact setWithNotExist_of_present m k old v ((Get_eq_true_iff m k old).1 hpres)
  · intro habs
    have h0 := (Get_false_iff m k).1 habs
    have he1 := setWithNotExist_of_absent m k v1 h0
    have hget1 : (m.SetWithNotExist k v1).1.Get k = (v1, true) := by
      rw [he1]
      exact Get_Set_self m k v1 hlen
    refine ⟨by rw [he1], hget1, ?_⟩
    intro _
    have h2 := setWithNotExist_of_present (m.SetWithNotExist k v1).1 k v1 v2
      ((Get_eq_true_iff (m.SetWithNotExist k v1).1 k v1).1 hget1)
    exact ⟨h2, by rw [h2]; exact hget1⟩

/-- Witness for **C2**: on a fresh one-shard map, `SetWithNotExist "a" 1`
inserts and returns `(1, true)`; `SetWithNotExist "a" 2` then returns
`(1, false)` without modifying the map, and `Get "a"` still yields `1`. -/
theorem setWithNotExist_check_then_insert_witness :
    ((New Nat (fun s => s.length) [1]).SetWithNotExist "a" 1).2 = (1, true)
    ∧ ((New Nat (fun s => s.length) [1]).SetWithNotExist "a" 1).1.Get "a" = (1, true)
    ∧ (((New Nat (fun s => s.length) [1]).SetWithNotExist "a" 1).1.SetWithNotExist "a" 2)
        = ((((New Nat (fun s => s.length) [1]).SetWithNotExist "a" 1).1), 1, false)
    ∧ ((((New Nat (fun s => s.length) [1]).SetWithNotExist "a" 1).1.SetWithNotExist "a" 2).1.Get "a")
        = (1, true) := by
  have h := (setWithNotExist_check_then_insert
    (New Nat (fun s => s.length) [1]) "a" 0 5 1 2 (by decide)).2 (by decide)
  exact ⟨h.1, h.2.1, (h.2.2 (by decide)).1, (h.2.2 (by decide)).2⟩

section DeleteLemmas

variable {V : Type}

/-- In a well-formed map the shard a key routes to has no duplicate keys. -/
theorem WF_shard_nodup (m : Map V) (hwf : m.WF) (k : String) :
    ((m.datas.getD (m.getIndex k) []).map Prod.fst).Nodup :=
  (hwf.2 _ (getIndex_lt_length m k hwf.1)).1

theorem delete_of_absent (m : Map V) (k : String)
    (h : mapLookup (m.datas.getD (m.getIndex k) []) k = none) :
    m.Delete k = (m, false) := by
  simp only [Map.Delete, h]

theorem delete_of_present (m : Map V) (k : String) (val : V)
    (h : mapLookup (m.datas.getD (m.getIndex k) []) k = some val) :
    m.Delete k = (m.eraseShard k, true) := by
  simp only [Map.Delete, Map.eraseShard, h]

theorem deleteIf_of_absent (m : Map V) (k : String) (p : V → Bool)
    (h : mapLookup (m.datas.getD (m.getIndex k) []) k = none) :
    m.DeleteIf k p = (m, false) := by
  simp only [Map.DeleteIf, h]

theorem deleteIf_of_pred_false (m : Map V) (k : String) (p : V → Bool)
    (val : V) (h : mapLookup (m.datas.getD (m.getIndex k) []) k = some val)
    (hp : p val = false) : m.DeleteIf k p = (m, false) := by
  simp only [Map.DeleteIf, h, hp]
  simp

theorem deleteIf_of_pred_true (m : Map V) (k : String) (p : V → Bool)
    (val : V) (h : mapLookup (m.datas.getD (m.getIndex k) []) k = some val)
    (hp : p val = true) :
    m.DeleteIf k p = (m.eraseShard k, true) := by
  simp only [Map.DeleteIf, Map.eraseShard, h, hp]
  simp

/-- After erasing `k` from its own (duplicate-free) shard, `Get k` misses. -/
theorem Get_after_erase_self [Inhabited V] (m : Map V) (k : String)
    (hwf : m.WF) : ((m.eraseShard k).Get k).2 = false := by
  unfold Map.eraseShard
  rw [Get_datasSet_self m _ k hwf.1,
    mapLookup_erase_self _ k (WF_shard_nodup m hwf k)]

end DeleteLemmas

/-- **C6.** `DeleteIf(k, pred)` removes the entry for `k` and returns `true`
exactly when `k` is present and `pred` holds of its current value; when `k`
is absent or `pred` returns `false` it returns `false` and the map is
unchanged.  Entries of other keys are never affected. -/
theorem deleteIf_conditional_removal {V : Type} [Inhabited V] (m : Map V)
    (k k2 : String) (cur : V) (p : V → Bool) (hwf : m.WF) :
    (m.Get k = (cur, true) → p cur = true →
        (m.DeleteIf k p).2 = true
        ∧ ((m.DeleteIf k p).1.Get k).2 = false
        ∧ (k2 ≠ k → (m.DeleteIf k p).1.Get k2 = m.Get k2))
    ∧ (m.Get k = (cur, true) → p cur = false → m.DeleteIf k p = (m, false))
    ∧ ((m.Get k).2 = false → m.DeleteIf k p = (m, false)) := by
  refine ⟨?_, ?_, ?_⟩
  · intro hpres hp
    have h := (Get_eq_true_iff m k cur).1 hpres
    have hd := deleteIf_of_pred_true m k p cur h hp
    refine ⟨by rw [hd], by rw [hd]; exact Get_after_erase_self m k hwf, ?_⟩
    intro hne
    exact Get_applyOp_of_not_touches m (.delIf k p) k2
      (by simp [Op.touches, Ne.symm hne])
  · intro hpres hp
    exact deleteIf_of_pred_false m k p cur ((Get_eq_true_iff m k cur).1 hpres) hp
  · intro habs
    exact deleteIf_of_absent m k p ((Get_false_iff m k).1 habs)

/-- Witness for **C6**: with `{"a" ↦ 10}` in a one-shard map,
`DeleteIf "a" (5 < ·)` deletes and returns `true`, leaving `"b"` reads
unchanged; `DeleteIf "a" (20 < ·)` returns `false` and changes nothing. -/
theorem deleteIf_conditional_removal_witness :
    ((New Nat (fun s => s.length) [1]).Set "a" 10).WF
    ∧ (((New Nat (fun s => s.length) [1]).Set "a" 10).DeleteIf "a"
        (fun v => 5 < v)).2 = true
    ∧ ((((New Nat (fun s => s.length) [1]).Set "a" 10).DeleteIf "a"
        (fun v => 5 < v)).1.Get "a").2 = false
    ∧ ((New Nat (fun s => s.length) [1]).Set "a" 10).DeleteIf "a"
        (fun v => 20 < v)
      = ((New Nat (fun s => s.length) [1]).Set "a" 10, false) := by
  have h1 := deleteIf_conditional_removal
    ((New Nat (fun s => s.length) [1]).Set "a" 10) "a" "b" 10
    (fun v => 5 < v) (by decide)
  have h2 := deleteIf_conditional_removal
    ((New Nat (fun s => s.length) [1]).Set "a" 10) "a" "b" 10
    (fun v => 20 < v) (by decide)
  have ha := h1.1 (by decide) (by decide)
  exact ⟨by decide, ha.1, ha.2.1, h2.2.1 (by decide) (by decide)⟩

/-- **C7.** `Delete(k)` on an absent key returns `false` and leaves the map
(and so `Len`) unchanged; on a present key it removes the entry and returns
`true`, leaving other keys' entries unchanged. -/
theorem delete_semantics {V : Type} [Inhabited V] (m : Map V)
    (k k2 : String) (hwf : m.WF) :
    ((m.Get k).2 = false →
        m.Delete k = (m, false) ∧ (m.Delete k).1.Len = m.Len)
    ∧ ((m.Get k).2 = true →
        (m.Delete k).2 = true
        ∧ ((m.Delete k).1.Get k).2 = false
        ∧ (k2 ≠ k → (m.Delete k).1.Get k2 = m.Get k2)) := by
  constructor
  · intro habs
    have hd := delete_of_absent m k ((Get_false_iff m k).1 habs)
    exact ⟨hd, by rw [hd]⟩
  · intro hpres
    obtain ⟨val, hval⟩ : ∃ val,
        mapLookup (m.datas.getD (m.getIndex k) []) k = some val := by
      unfold Map.Get Map.shardOf at hpres
      cases h : mapLookup (m.datas.getD (m.getIndex k) []) k with
      | none => rw [h] at hpres; simp at hpres
      | some v => exact ⟨v, rfl⟩
    have hd := delete_of_present m k val hval
    refine ⟨by rw [hd], by rw [hd]; exact Get_after_erase_self m k hwf, ?_⟩
    intro hne
    exact Get_applyOp_of_not_touches m (.del k) k2
      (by simp [Op.touches, Ne.symm hne])

/-- Witness for **C7**: deleting the absent key `"z"` from `{"a" ↦ 10}`
returns `false` and preserves `Len`; deleting `"a"` returns `true` and
`Get "a"` subsequently misses. -/
theorem delete_semantics_witness :
    ((New Nat (fun s => s.length) [1]).Set "a" 10).WF
    ∧ ((New Nat (fun s => s.length) [1]).Set "a" 10).Delete "z"
        = ((New Nat (fun s => s.length) [1]).Set "a" 10, false)
    ∧ (((New Nat (fun s => s.length) [1]).Set "a" 10).Delete "z").1.Len
        = ((New Nat (fun s => s.length) [1]).Set "a" 10).Len
    ∧ (((New Nat (fun s => s.length) [1]).Set "a" 10).Delete "a").2 = true
    ∧ ((((New Nat (fun s => s.length) [1]).Set "a" 10).Delete "a").1.Get "a").2
        = false := by
  have hz := (delete_semantics ((New Nat (fun s => s.length) [1]).Set "a" 10)
    "z" "b" (by decide)).1 (by decide)
  have ha := (delete_semantics ((New Nat (fun s => s.length) [1]).Set "a" 10)
    "a" "b" (by decide)).2 (by decide)
  exact ⟨by decide, hz.1, hz.2, ha.1, ha.2.1⟩

/-- **C9.** `GetWithDefault(k, d)` returns `(d, false)` when `k` is absent
and `(v, true)` when `k` is present with value `v`, and in both cases the
map afterwards is the map before — the fallback is never inserted.  The
same holds of the variadic `Get` of `src/unnamed/part_000` with a supplied
fallback. -/
theorem getWithDefault_never_inserts {V : Type} [Inhabited V] (m : Map V)
    (k : String) (d cur : V) :
    ((m.Get k).2 = false →
        m.GetWithDefault k d = ((d, false), m) ∧ V0.Get m k [d] = (d, false))
    ∧ (m.Get k = (cur, true) →
        m.GetWithDefault k d = ((cur, true), m)
        ∧ V0.Get m k [d] = (cur, true)) := by
  constructor
  · intro habs
    have h := (Get_false_iff m k).1 habs
    have h2 : mapLookup (m.datas.getD (V0.getIndex m k) []) k = none := h
    constructor
    · unfold Map.GetWithDefault Map.shardOf
      rw [h]
    · simp only [V0.Get, h2]
  · intro hpres
    have h := (Get_eq_true_iff m k cur).1 hpres
    have h2 : mapLookup (m.datas.getD (V0.getIndex m k) []) k = some cur := h
    constructor
    · unfold Map.GetWithDefault Map.shardOf
      rw [h]
    · simp only [V0.Get, h2]

/-- Witness for **C9**: on `{"a" ↦ 25}`, `GetWithDefault "h" 170` returns
`(170, false)` with the map unchanged, and `GetWithDefault "a" 0` returns
`(25, true)`; likewise for the variadic `Get`. -/
theorem getWithDefault_never_inserts_witness :
    (((New Nat (fun s => s.length) [1]).Set "a" 25).Get "h").2 = false
    ∧ ((New Nat (fun s => s.length) [1]).Set "a" 25).GetWithDefault "h" 170
        = ((170, false), (New Nat (fun s => s.length) [1]).Set "a" 25)
    ∧ V0.Get ((New Nat (fun s => s.length) [1]).Set "a" 25) "h" [170]
        = (170, false)
    ∧ ((New Nat (fun s => s.length) [1]).Set "a" 25).GetWithDefault "a" 0
        = ((25, true), (New Nat (fun s => s.length) [1]).Set "a" 25)
    ∧ V0.Get ((New Nat (fun s => s.length) [1]).Set "a" 25) "a" [0]
        = (25, true) := by
  have habs := (getWithDefault_never_inserts
    ((New Nat (fun s => s.length) [1]).Set "a" 25) "h" 170 0).1 (by decide)
  have hpres := (getWithDefault_never_inserts
    ((New Nat (fun s => s.length) [1]).Set "a" 25) "a" 0 25).2 (by decide)
  exact ⟨by decide, habs.1, habs.2, hpres.1, hpres.2⟩

/-- **C10.** For every map produced by `New` (of either source file, with or
without a shard-count hint) and every key, `getIndex` is in
`[0, ShardCount())`, so shard accesses are in bounds; moreover for any map
with at least one shard the mask produces an in-range index. -/
theorem getIndex_in_bounds (V : Type) (hash : String → Nat)
    (args : List Int) (key : String) (m : Map V) (hlen : 0 < m.datas.length) :
    (New V hash args).getIndex key < (New V hash args).ShardCount
    ∧ V0.getIndex (V0.New V hash args) key < (V0.New V hash args).ShardCount
    ∧ m.getIndex key < m.ShardCount := by
  have hts : ∀ c : Int, 0 < trueShards c := by
    intro c
    unfold trueShards
    by_cases h1 : c < 1
    · simp [h1]
    · by_cases h2 : c > 65536 <;> simp [h1, h2]
  have hnew : 0 < (New V hash args).datas.length := by
    unfold New
    cases args with
    | nil => simp [defaultShardCount]
    | cons c rest => simpa using hts c
  have hnew0 : 0 < (V0.New V hash args).datas.length := by
    unfold V0.New
    cases args with
    | nil => simp [V0.defaultShardCount]
    | cons c rest => simpa using hts c
  refine ⟨getIndex_lt_length _ key hnew, ?_, getIndex_lt_length m key hlen⟩
  exact Nat.lt_of_le_of_lt Nat.and_le_right (Nat.sub_lt hnew0 Nat.one_pos)

/-- Witness for **C10**: a concrete map built by `New` with hint `4` has the
index of `"abc"` within its 4 shards. -/
theorem getIndex_in_bounds_witness :
    0 < (New Nat (fun s => 7 * s.length + 3) [4]).datas.length
    ∧ (New Nat (fun s => 7 * s.length + 3) [4]).getIndex "abc"
        < (New Nat (fun s => 7 * s.length + 3) [4]).ShardCount
    ∧ V0.getIndex (V0.New Nat (fun s => 7 * s.length + 3) [4]) "abc"
        < (V0.New Nat (fun s => 7 * s.length + 3) [4]).ShardCount
    ∧ (New Nat (fun s => 7 * s.length + 3) [4]).getIndex "abc"
        < (New Nat (fun s => 7 * s.length + 3) [4]).ShardCount :=
  ⟨by decide,
    (getIndex_in_bounds Nat (fun s => 7 * s.length + 3) [4] "abc"
      (New Nat (fun s => 7 * s.length + 3) [4]) (by decide)).1,
    (getIndex_in_bounds Nat (fun s => 7 * s.length + 3) [4] "abc"
      (New Nat (fun s => 7 * s.length + 3) [4]) (by decide)).2.1,
    (getIndex_in_bounds Nat (fun s => 7 * s.length + 3) [4] "abc"
      (New Nat (fun s => 7 * s.length + 3) [4]) (by decide)).2.2⟩

section ShardCountLemmas

/-- One smearing step `x ||| x >>> w` widens the window of source bits that
reach each result bit from `w` to `2 * w`. -/
theorem spread_step (n x w : Nat)
    (h : ∀ i d2, d2 < w → n.testBit (i + d2) = true → x.testBit i = true) :
    ∀ i d2, d2 < w + w → n.testBit (i + d2) = true →
      (x ||| x >>> w).testBit i = true := by
  intro i d2 hd hbit
  rw [Nat.testBit_lor, Nat.testBit_shiftRight]
  by_cases hc : d2 < w
  · rw [h i d2 hc hbit]
    simp
  · have hb2 : n.testBit (w + i + (d2 - w)) = true := by
      rw [show w + i + (d2 - w) = i + d2 by omega]
      exact hbit
    rw [h (w + i) (d2 - w) (by omega) hb2]
    simp

/-- Any set bit of `n` within 32 positions above `i` sets bit `i` of
`smear5 n`. -/
theorem smear5_testBit_low (n : Nat) :
    ∀ i d2, d2 < 32 → n.testBit (i + d2) = true →
      (smear5 n).testBit i = true := by
  have h0 : ∀ i d2, d2 < 1 → n.testBit (i + d2) = true →
      n.testBit i = true := by
    intro i d2 hd hbit
    have : d2 = 0 := by omega
    subst this
    exact hbit
  have h1 := spread_step n n 1 h0
  have h2 := spread_step n (n ||| n >>> 1) 2 h1
  have h3 := spread_step n ((n ||| n >>> 1) ||| (n ||| n >>> 1) >>> 2) 4 h2
  have h4 := spread_step n _ 8 h3
  have h5 := spread_step n _ 16 h4
  intro i d2 hd hbit
  exact h5 i d2 (by omega) hbit

/-- Bits at or above the size of `n` stay clear through the smearing. -/
theorem smear5_testBit_high (n k : Nat) (hn : n < 2 ^ k) :
    ∀ j, k ≤ j → (smear5 n).testBit j = false := by
  have base : ∀ j, k ≤ j → n.testBit j = false := fun j hj =>
    Nat.testBit_lt_two_pow
      (lt_of_lt_of_le hn (Nat.pow_le_pow_right (by norm_num) hj))
  have step : ∀ (x s : Nat), (∀ j, k ≤ j → x.testBit j = false) →
      ∀ j, k ≤ j → (x ||| x >>> s).testBit j = false := by
    intro x s hx j hj
    rw [Nat.testBit_lor, Nat.testBit_shiftRight, hx j hj,
      hx (s + j) (le_trans hj (Nat.le_add_left j s))]
    rfl
  exact step _ 16 (step _ 8 (step _ 4 (step _ 2 (step _ 1 base))))

/-- A positive number has its top bit (at position `size - 1`) set. -/
theorem testBit_size_pred (n : Nat) (hn : 0 < n) :
    n.testBit (n.size - 1) = true := by
  have hs : 0 < n.size := Nat.size_pos.2 hn
  have h1 : 2 ^ (n.size - 1) ≤ n := Nat.lt_size.1 (by omega)
  have h2 : n < 2 ^ n.size := Nat.lt_size_self n
  rw [Nat.testBit_to_div_mod]
  have hpos : 0 < 2 ^ (n.size - 1) := Nat.pos_pow_of_pos _ (by norm_num)
  have hlt : n / 2 ^ (n.size - 1) < 2 := by
    apply Nat.div_lt_of_lt_mul
    calc n < 2 ^ n.size := h2
      _ = 2 ^ (n.size - 1 + 1) := by
          congr 1
          omega
      _ = 2 ^ (n.size - 1) * 2 := pow_succ 2 (n.size - 1)
  have hge : 1 ≤ n / 2 ^ (n.size - 1) := (Nat.one_le_div_iff hpos).2 h1
  have : n / 2 ^ (n.size - 1) = 1 := by omega
  rw [this]
  rfl

/-- The smearing of `src/hmap.go` lines 34-40 fills every bit below the top
one: for `n < 2 ^ 16`, `smear5 n = 2 ^ size n - 1`. -/
theorem smear5_eq_two_pow_size_sub_one (n : Nat) (hn : n < 2 ^ 16) :
    smear5 n = 2 ^ n.size - 1 := by
  have hsz : n.size ≤ 16 := Nat.size_le.2 hn
  apply Nat.eq_of_testBit_eq
  intro i
  rw [Nat.testBit_two_pow_sub_one]
  by_cases hi : i < n.size
  · have hnpos : 0 < n := by
      rcases Nat.eq_zero_or_pos n with h0 | h0
      · subst h0
        simp [Nat.size_zero] at hi
      · exact h0
    have htop := testBit_size_pred n hnpos
    have hb : n.testBit (i + (n.size - 1 - i)) = true := by
      rw [show i + (n.size - 1 - i) = n.size - 1 by omega]
      exact htop
    rw [smear5_testBit_low n i (n.size - 1 - i) (by omega) hb]
    simp [hi]
  · rw [smear5_testBit_high n n.size (Nat.lt_size_self n) i (by omega)]
    simp [hi]

/-- `size (t - 1)` computes `⌈log₂ t⌉` for positive `t`. -/
theorem size_pred_eq_clog (t : Nat) (ht : 1 ≤ t) :
    (t - 1).size = Nat.clog 2 t := by
  apply le_antisymm
  · apply Nat.size_le.2
    have := @Nat.le_pow_clog 2 (by norm_num) t
    omega
  · apply (Nat.le_pow_iff_clog_le (by norm_num)).1
    have := Nat.lt_size_self (t - 1)
    omega

/-- `trueShards` computes exactly the spec's clamped least power of two. -/
theorem trueShards_eq_specShardCount (x : Int) :
    trueShards x = specShardCount x := by
  unfold trueShards specShardCount
  by_cases h1 : x < 1
  · simp [h1]
  · by_cases h2 : x > 65536
    · simp [h1, h2]
    · simp only [h1, h2, if_false]
      have hx1 : (1 : Int) ≤ x := by omega
      have hx2 : x ≤ 65536 := by omega
      have h1t : 1 ≤ x.toNat := by omega
      have h2t : x.toNat ≤ 65536 := by omega
      have htm : (x - 1).toNat = x.toNat - 1 := by omega
      rw [htm, smear5_eq_two_pow_size_sub_one (x.toNat - 1) (by norm_num; omega),
        size_pred_eq_clog x.toNat h1t]
      have hpos : 0 < 2 ^ Nat.clog 2 x.toNat :=
        Nat.pos_pow_of_pos _ (by norm_num)
      omega

theorem shardCount_New (V : Type) (hash : String → Nat) (x : Int) :
    (New V hash [x]).ShardCount = trueShards x := by
  simp [New, Map.ShardCount]

end ShardCountLemmas

/-- **C3.** `New(n)` produces a map whose `ShardCount()` is the smallest
power of two ≥ `n`, clamped to `[1, 65536]`: it equals the spec-side
`specShardCount`, which for in-range requests is a power of two at least
the request and minimal among such powers; requesting 100 yields 128,
0 or any negative yields 1, and any request above 65536 yields 65536. -/
theorem shardCount_power_of_two_clamped (V : Type) (hash : String → Nat)
    (x : Int) :
    (New V hash [x]).ShardCount = specShardCount x
    ∧ (1 ≤ x → x ≤ 65536 →
        x.toNat ≤ specShardCount x
        ∧ (∀ p : Nat, x.toNat ≤ 2 ^ p → specShardCount x ≤ 2 ^ p))
    ∧ (∃ j : Nat, specShardCount x = 2 ^ j)
    ∧ (x < 1 → specShardCount x = 1)
    ∧ (x > 65536 → specShardCount x = 65536)
    ∧ (New V hash [100]).ShardCount = 128
    ∧ (New V hash [0]).ShardCount = 1
    ∧ (New V hash [-5]).ShardCount = 1
    ∧ (New V hash [100000]).ShardCount = 65536 := by
  refine ⟨by rw [shardCount_New, trueShards_eq_specShardCount], ?_, ?_, ?_, ?_,
    by rw [shardCount_New]; decide, by rw [shardCount_New]; decide,
    by rw [shardCount_New]; decide, by rw [shardCount_New]; decide⟩
  · intro hx1 hx2
    have hn1 : ¬x < 1 := by omega
    have hn2 : ¬x > 65536 := by omega
    unfold specShardCount
    simp only [hn1, hn2, if_false]
    constructor
    · exact Nat.le_pow_clog (by norm_num) x.toNat
    · intro p hp
      exact Nat.pow_le_pow_right (by norm_num)
        ((Nat.le_pow_iff_clog_le (by norm_num)).1 hp)
  · unfold specShardCount
    by_cases h1 : x < 1
    · exact ⟨0, by simp [h1]⟩
    · by_cases h2 : x > 65536
      · exact ⟨16, by simp [h1, h2]⟩
      · exact ⟨Nat.clog 2 x.toNat, by simp [h1, h2]⟩
  · intro h1
    simp [specShardCount, h1]
  · intro h2
    have hn1 : ¬x < 1 := by omega
    simp [specShardCount, hn1, h2]

/-- Witness for **C3**: requesting 100 shards yields 128, which is at least
100 and no larger than the power of two 128. -/
theorem shardCount_power_of_two_clamped_witness :
    (1 : Int) ≤ 100 ∧ (100 : Int) ≤ 65536
    ∧ (New Nat (fun s => s.length) [100]).ShardCount = specShardCount 100
    ∧ (100 : Int).toNat ≤ specShardCount 100
    ∧ ((100 : Int).toNat ≤ 2 ^ 7 → specShardCount 100 ≤ 2 ^ 7)
    ∧ (New Nat (fun s => s.length) [100]).ShardCount = 128 := by
  have h := shardCount_power_of_two_clamped Nat (fun s => s.length) 100
  have h2 := h.2.1 (by decide) (by decide)
  exact ⟨by decide, by decide, h.1, h2.1, h2.2 7, h.2.2.2.2.2.1⟩

section PruneLemmas

variable {V E : Type}

/-- A shard pass of `Prune` with an error-free predicate keeps exactly the
entries the predicate rejects and counts both classes. -/
theorem pruneShard_errFree (f : String → V → Bool × Option E)
    (d : List (String × V))
    (h : ∀ p ∈ d, (f p.1 p.2).2 = none) :
    pruneShard f d
      = (d.filter (fun p => !(f p.1 p.2).1),
        (d.filter (fun p => (f p.1 p.2).1)).length,
        (d.filter (fun p => !(f p.1 p.2).1)).length, none) := by
  induction d with
  | nil => rfl
  | cons p rest ih =>
    obtain ⟨k, v⟩ := p
    have hkv : (f k v).2 = none := h (k, v) (List.mem_cons_self _ _)
    have hrest := ih fun q hq => h q (List.mem_cons_of_mem _ hq)
    rcases hfv : f k v with ⟨b, eo⟩
    rw [hfv] at hkv
    simp only at hkv
    subst hkv
    cases b with
    | true =>
      simp only [pruneShard, hfv, hrest, List.filter_cons]
      simp [hfv]
    | false =>
      simp only [pruneShard, hfv, hrest, List.filter_cons]
      simp [hfv]

/-- A shard pass of `Prune` that hits an error: the entries before the
erroring one are pruned and counted, the erroring entry and everything
after it stay in place, and the error comes back. -/
theorem pruneShard_err (f : String → V → Bool × Option E)
    (pre : List (String × V)) (k : String) (v : V)
    (post : List (String × V)) (b : Bool) (e : E)
    (hpre : ∀ p ∈ pre, (f p.1 p.2).2 = none)
    (hkv : f k v = (b, some e)) :
    pruneShard f (pre ++ (k, v) :: post)
      = (pre.filter (fun p => !(f p.1 p.2).1) ++ (k, v) :: post,
        (pre.filter (fun p => (f p.1 p.2).1)).length,
        (pre.filter (fun p => !(f p.1 p.2).1)).length, some e) := by
  induction pre with
  | nil =>
    simp only [List.nil_append, pruneShard, hkv, List.filter_nil,
      List.length_nil]
  | cons q pre2 ih =>
    obtain ⟨k2, v2⟩ := q
    have hq : (f k2 v2).2 = none := hpre (k2, v2) (List.mem_cons_self _ _)
    have ih2 := ih fun p hp => hpre p (List.mem_cons_of_mem _ hp)
    rcases hf2 : f k2 v2 with ⟨b2, eo2⟩
    rw [hf2] at hq
    simp only at hq
    subst hq
    cases b2 with
    | true =>
      simp only [List.cons_append, pruneShard, hf2, List.filter_cons]
      simp [hf2, ih2]
    | false =>
      simp only [List.cons_append, pruneShard, hf2, List.filter_cons]
      simp [hf2, ih2]

/-- The whole `Prune` loop with an error-free predicate: every shard is
filtered in place and the counts are taken over all entries. -/
theorem pruneShards_errFree (f : String → V → Bool × Option E)
    (ds : List (List (String × V)))
    (h : ∀ p ∈ ds.flatten, (f p.1 p.2).2 = none) :
    pruneShards f ds
      = (ds.map (fun d => d.filter (fun p => !(f p.1 p.2).1)),
        (ds.flatten.filter (fun p => (f p.1 p.2).1)).length,
        (ds.flatten.filter (fun p => !(f p.1 p.2).1)).length, none) := by
  induction ds with
  | nil => rfl
  | cons d rest ih =>
    have hd : ∀ p ∈ d, (f p.1 p.2).2 = none := fun p hp =>
      h p (by simp [List.flatten_cons, hp])
    have hrest := ih fun p hp => h p (by simp [List.flatten_cons, hp])
    simp only [pruneShards, pruneShard_errFree f d hd, hrest,
      List.flatten_cons, List.filter_append, List.length_append,
      List.map_cons]

/-- The whole `Prune` loop hitting an error inside one shard: shards before
it are fully pruned, the erroring shard is pruned only up to the erroring
entry, shards after it are untouched, and the counts cover exactly the
entries processed before the error. -/
theorem pruneShards_err (f : String → V → Bool × Option E)
    (dsPre : List (List (String × V))) (epre : List (String × V))
    (k : String) (v : V) (epost : List (String × V))
    (dsPost : List (List (String × V))) (b : Bool) (e : E)
    (hpre1 : ∀ p ∈ dsPre.flatten, (f p.1 p.2).2 = none)
    (hpre2 : ∀ p ∈ epre, (f p.1 p.2).2 = none)
    (hkv : f k v = (b, some e)) :
    pruneShards f (dsPre ++ (epre ++ (k, v) :: epost) :: dsPost)
      = (dsPre.map (fun d => d.filter (fun p => !(f p.1 p.2).1))
          ++ (epre.filter (fun p => !(f p.1 p.2).1) ++ (k, v) :: epost) :: dsPost,
        ((dsPre.flatten ++ epre).filter (fun p => (f p.1 p.2).1)).length,
        ((dsPre.flatten ++ epre).filter (fun p => !(f p.1 p.2).1)).length,
        some e) := by
  induction dsPre with
  | nil =>
    simp only [List.nil_append, pruneShards,
      pruneShard_err f epre k v epost b e hpre2 hkv, List.flatten_nil,
      List.map_nil]
  | cons d rest ih =>
    have hd : ∀ p ∈ d, (f p.1 p.2).2 = none := fun p hp =>
      hpre1 p (by simp [List.flatten_cons, hp])
    have ihrest := ih fun p hp => hpre1 p (by simp [List.flatten_cons, hp])
    simp only [List.cons_append, pruneShards, pruneShard_errFree f d hd,
      List.append_eq, ihrest, List.flatten_cons, List.append_assoc,
      List.filter_append, List.length_append, List.map_cons]

end PruneLemmas

/-- **C5.** With an error-free predicate, `Prune(f)` deletes exactly the
entries satisfying `f`, keeps the rest, and returns the two counts with a
nil error. -/
theorem prune_error_free {V E : Type} (m : Map V)
    (f : String → V → Bool × Option E)
    (h : ∀ p ∈ m.entries, (f p.1 p.2).2 = none) :
    (m.Prune f).2.2.2 = none
    ∧ (m.Prune f).1.entries = m.entries.filter (fun p => !(f p.1 p.2).1)
    ∧ (m.Prune f).2.1 = (m.entries.filter (fun p => (f p.1 p.2).1)).length
    ∧ (m.Prune f).2.2.1
        = (m.entries.filter (fun p => !(f p.1 p.2).1)).length := by
  unfold Map.entries at h
  simp only [Map.Prune, Map.entries, pruneShards_errFree f m.datas h]
  simp

/-- Witness for **C5**: with entries `{a:1, b:5, c:10, d:15}` and the
predicate "value < 10", `Prune` returns `(2, 2, nil)` and the remaining
entries are exactly `{c:10, d:15}`. -/
theorem prune_error_free_witness :
    ((((((New Nat (fun s => s.length) [1]).Set "a" 1).Set "b" 5).Set
        "c" 10).Set "d" 15).Prune
        (fun _ v => (decide (v < 10), (none : Option Nat)))).2.1 = 2
    ∧ ((((((New Nat (fun s => s.length) [1]).Set "a" 1).Set "b" 5).Set
        "c" 10).Set "d" 15).Prune
        (fun _ v => (decide (v < 10), (none : Option Nat)))).2.2.1 = 2
    ∧ ((((((New Nat (fun s => s.length) [1]).Set "a" 1).Set "b" 5).Set
        "c" 10).Set "d" 15).Prune
        (fun _ v => (decide (v < 10), (none : Option Nat)))).2.2.2 = none
    ∧ ((((((New Nat (fun s => s.length) [1]).Set "a" 1).Set "b" 5).Set
        "c" 10).Set "d" 15).Prune
        (fun _ v => (decide (v < 10), (none : Option Nat)))).1.entries
      = [("c", 10), ("d", 15)] := by
  have h := prune_error_free
    (((((New Nat (fun s => s.length) [1]).Set "a" 1).Set "b" 5).Set
      "c" 10).Set "d" 15)
    (fun _ v => (decide (v < 10), (none : Option Nat))) (by decide)
  exact ⟨h.2.2.1.trans (by decide), h.2.2.2.trans (by decide), h.1,
    h.2.1.trans (by decide)⟩

/-- **C4.** If the predicate errors on some entry (here: the first erroring
entry reached, all earlier processed entries being error-free), `Prune`
stops immediately: no entry of the erroring entry's shard tail or of any
later shard is visited or changed, the returned counts are exactly the
deletions and retentions accumulated before the erroring call, the error is
returned alongside them, and deletions already performed on earlier entries
and earlier shards remain (no rollback). -/
theorem prune_error_stops_immediately {V E : Type} (m : Map V)
    (f : String → V → Bool × Option E)
    (dsPre : List (List (String × V))) (epre : List (String × V))
    (k : String) (v : V) (epost : List (String × V))
    (dsPost : List (List (String × V))) (b : Bool) (e : E)
    (hdecomp : m.datas = dsPre ++ (epre ++ (k, v) :: epost) :: dsPost)
    (hpre1 : ∀ p ∈ dsPre.flatten, (f p.1 p.2).2 = none)
    (hpre2 : ∀ p ∈ epre, (f p.1 p.2).2 = none)
    (hkv : f k v = (b, some e)) :
    (m.Prune f).2.2.2 = some e
    ∧ (m.Prune f).2.1
        = ((dsPre.flatten ++ epre).filter (fun p => (f p.1 p.2).1)).length
    ∧ (m.Prune f).2.2.1
        = ((dsPre.flatten ++ epre).filter (fun p => !(f p.1 p.2).1)).length
    ∧ (m.Prune f).1.datas
        = dsPre.map (fun d => d.filter (fun p => !(f p.1 p.2).1))
          ++ (epre.filter (fun p => !(f p.1 p.2).1) ++ (k, v) :: epost)
            :: dsPost := by
  simp only [Map.Prune, hdecomp,
    pruneShards_err f dsPre epre k v epost dsPost b e hpre1 hpre2 hkv]
  simp

/-- Witness for **C4**: on the three-shard map
`[[a:1, b:2], [c:3, d:4], [e:5]]` with a predicate that deletes value 1 and
errors on key `"c"`, `Prune` returns `(1, 1, some 7)`, the deletion of
`"a"` persists, and the second shard's tail `d:4` and the third shard stay
untouched. -/
theorem prune_error_stops_immediately_witness :
    ((⟨[[("a", 1), ("b", 2)], [("c", 3), ("d", 4)], [("e", 5)]],
        fun _ => 0⟩ : Map Nat).datas
      = [[("a", 1), ("b", 2)]]
        ++ ([] ++ ("c", 3) :: [("d", 4)]) :: [[("e", 5)]])
    ∧ (((⟨[[("a", 1), ("b", 2)], [("c", 3), ("d", 4)], [("e", 5)]],
        fun _ => 0⟩ : Map Nat).Prune
        (fun k v => (decide (v = 1),
          if k = "c" then some 7 else (none : Option Nat)))).2.2.2 = some 7)
    ∧ (((⟨[[("a", 1), ("b", 2)], [("c", 3), ("d", 4)], [("e", 5)]],
        fun _ => 0⟩ : Map Nat).Prune
        (fun k v => (decide (v = 1),
          if k = "c" then some 7 else (none : Option Nat)))).2.1 = 1)
    ∧ (((⟨[[("a", 1), ("b", 2)], [("c", 3), ("d", 4)], [("e", 5)]],
        fun _ => 0⟩ : Map Nat).Prune
        (fun k v => (decide (v = 1),
          if k = "c" then some 7 else (none : Option Nat)))).2.2.1 = 1)
    ∧ (((⟨[[("a", 1), ("b", 2)], [("c", 3), ("d", 4)], [("e", 5)]],
        fun _ => 0⟩ : Map Nat).Prune
        (fun k v => (decide (v = 1),
          if k = "c" then some 7 else (none : Option Nat)))).1.datas
      = [[("b", 2)], [("c", 3), ("d", 4)], [("e", 5)]]) := by
  have h := prune_error_stops_immediately
    (⟨[[("a", 1), ("b", 2)], [("c", 3), ("d", 4)], [("e", 5)]],
      fun _ => 0⟩ : Map Nat)
    (fun k v => (decide (v = 1),
      if k = "c" then some 7 else (none : Option Nat)))
    [[("a", 1), ("b", 2)]] [] "c" 3 [("d", 4)] [[("e", 5)]] false 7
    (by decide) (by decide) (by decide) (by decide)
  exact ⟨by decide, h.1, h.2.1.trans (by decide),
    h.2.2.1.trans (by decide), h.2.2.2.trans (by decide)⟩

section RangeLemmas

variable {V : Type} {α : Type}

theorem takeWhile_eq_self_of_all (P : α → Bool) (l : List α)
    (h : ∀ x ∈ l, P x = true) : l.takeWhile P = l := by
  induction l with
  | nil => rfl
  | cons a t ih =>
    rw [List.takeWhile_cons, if_pos (h a (List.mem_cons_self _ _)),
      ih fun x hx => h x (List.mem_cons_of_mem _ hx)]

theorem dropWhile_eq_nil_of_all (P : α → Bool) (l : List α)
    (h : ∀ x ∈ l, P x = true) : l.dropWhile P = [] := by
  induction l with
  | nil => rfl
  | cons a t ih =>
    rw [List.dropWhile_cons, if_pos (h a (List.mem_cons_self _ _)),
      ih fun x hx => h x (List.mem_cons_of_mem _ hx)]

theorem takeWhile_append_all (P : α → Bool) (l1 l2 : List α)
    (h : ∀ x ∈ l1, P x = true) :
    (l1 ++ l2).takeWhile P = l1 ++ l2.takeWhile P := by
  induction l1 with
  | nil => rfl
  | cons a t ih =>
    rw [List.cons_append, List.takeWhile_cons,
      if_pos (h a (List.mem_cons_self _ _)),
      ih fun x hx => h x (List.mem_cons_of_mem _ hx), List.cons_append]

theorem dropWhile_append_all (P : α → Bool) (l1 l2 : List α)
    (h : ∀ x ∈ l1, P x = true) :
    (l1 ++ l2).dropWhile P = l2.dropWhile P := by
  induction l1 with
  | nil => rfl
  | cons a t ih =>
    rw [List.cons_append, List.dropWhile_cons,
      if_pos (h a (List.mem_cons_self _ _)),
      ih fun x hx => h x (List.mem_cons_of_mem _ hx)]

theorem takeWhile_append_stop (P : α → Bool) (l1 l2 : List α)
    (h : l1.all P = false) :
    (l1 ++ l2).takeWhile P = l1.takeWhile P := by
  induction l1 with
  | nil => simp at h
  | cons a t ih =>
    rw [List.all_cons] at h
    cases ha : P a with
    | false => rw [List.cons_append, List.takeWhile_cons, if_neg (by simp [ha]),
        List.takeWhile_cons, if_neg (by simp [ha])]
    | true =>
      rw [ha] at h
      simp only [Bool.true_and] at h
      rw [List.cons_append, List.takeWhile_cons, if_pos ha,
        List.takeWhile_cons, if_pos ha, ih h]

theorem dropWhile_append_stop (P : α → Bool) (l1 l2 : List α)
    (h : l1.all P = false) :
    (l1 ++ l2).dropWhile P = l1.dropWhile P ++ l2 := by
  induction l1 with
  | nil => simp at h
  | cons a t ih =>
    rw [List.all_cons] at h
    cases ha : P a with
    | false => rw [List.cons_append, List.dropWhile_cons, if_neg (by simp [ha]),
        List.dropWhile_cons, if_neg (by simp [ha]), List.cons_append]
    | true =>
      rw [ha] at h
      simp only [Bool.true_and] at h
      rw [List.cons_append, List.dropWhile_cons, if_pos ha,
        List.dropWhile_cons, if_pos ha, ih h]

theorem dropWhile_ne_nil_of_all_false (P : α → Bool) (l : List α)
    (h : l.all P = false) : l.dropWhile P ≠ [] := by
  induction l with
  | nil => simp at h
  | cons a t ih =>
    rw [List.all_cons] at h
    cases ha : P a with
    | false => rw [List.dropWhile_cons, if_neg (by simp [ha])]; simp
    | true =>
      rw [ha] at h
      simp only [Bool.true_and] at h
      rw [List.dropWhile_cons, if_pos ha]
      exact ih h

/-- One shard pass of `Range`: the visitor sees the shard's entries up to
and including the first rejected one, and the pass reports whether it was
stopped. -/
theorem visitShard_eq (f : String → V → Bool) (d : List (String × V)) :
    visitShard f d
      = (d.takeWhile (fun p => f p.1 p.2)
          ++ (d.dropWhile (fun p => f p.1 p.2)).take 1,
        !d.all (fun p => f p.1 p.2)) := by
  induction d with
  | nil => rfl
  | cons p rest ih =>
    obtain ⟨k, v⟩ := p
    cases hf : f k v with
    | true =>
      simp [visitShard, hf, ih, List.takeWhile_cons, List.dropWhile_cons,
        List.all_cons]
    | false =>
      simp [visitShard, hf, List.takeWhile_cons, List.dropWhile_cons,
        List.all_cons]

/-- The whole `Range` loop visits the concatenated entries up to and
including the first rejected one. -/
theorem rangeShards_eq (f : String → V → Bool)
    (ds : List (List (String × V))) :
    rangeShards f ds
      = ds.flatten.takeWhile (fun p => f p.1 p.2)
        ++ (ds.flatten.dropWhile (fun p => f p.1 p.2)).take 1 := by
  induction ds with
  | nil => rfl
  | cons d rest ih =>
    simp only [rangeShards, visitShard_eq, List.flatten_cons]
    cases hall : d.all (fun p => f p.1 p.2) with
    | true =>
      have hmem2 : ∀ x ∈ d, (fun p => f p.1 p.2) x = true := fun x hx =>
        List.all_eq_true.1 hall x hx
      simp only [Bool.not_true]
      rw [if_neg (by simp)]
      rw [takeWhile_eq_self_of_all _ _ hmem2, dropWhile_eq_nil_of_all _ _ hmem2,
        takeWhile_append_all _ _ _ hmem2, dropWhile_append_all _ _ _ hmem2, ih]
      simp
    | false =>
      simp only [Bool.not_false, if_true]
      rw [takeWhile_append_stop _ _ _ hall, dropWhile_append_stop _ _ _ hall]
      obtain ⟨q, t, hqt⟩ : ∃ q t, d.dropWhile (fun p => f p.1 p.2) = q :: t := by
        cases hx : d.dropWhile (fun p => f p.1 p.2) with
        | nil => exact absurd hx (dropWhile_ne_nil_of_all_false _ _ hall)
        | cons q t => exact ⟨q, t, rfl⟩
      rw [hqt]
      simp

/-- In a well-formed map, every key occurs at most once across all shards:
per-shard keys are duplicate-free and the routing invariant separates
shards. -/
theorem WF_entries_keys_nodup (m : Map V) (hwf : m.WF) :
    (m.entries.map Prod.fst).Nodup := by
  unfold Map.entries
  rw [List.map_flatten, List.nodup_flatten]
  have hgetD : ∀ (i : Nat) (h : i < m.datas.length),
      m.datas.getD i [] = m.datas.get ⟨i, h⟩ := by
    intro i h
    simp [List.getD_eq_getElem?_getD, List.getElem?_eq_getElem h]
  constructor
  · intro s hs
    rw [List.mem_map] at hs
    obtain ⟨d, hd, rfl⟩ := hs
    obtain ⟨i, hi, hdi⟩ := List.getElem_of_mem hd
    have hn := (hwf.2 i hi).1
    rw [hgetD i hi] at hn
    rw [show m.datas.get ⟨i, hi⟩ = d from hdi] at hn
    exact hn
  · rw [List.pairwise_map, List.pairwise_iff_get]
    intro i j hij
    intro a ha hb
    rw [List.mem_map] at ha hb
    obtain ⟨p, hp, hpa⟩ := ha
    obtain ⟨q, hq, hqa⟩ := hb
    have hri := (hwf.2 i.1 i.2).2 p (by rw [hgetD i.1 i.2]; exact hp)
    have hrj := (hwf.2 j.1 j.2).2 q (by rw [hgetD j.1 j.2]; exact hq)
    rw [hpa] at hri
    rw [hqa] at hrj
    omega

end RangeLemmas

/-- **C8.** `Range(f)` invokes the visitor on the concatenated shard
snapshots in order, exactly once per entry, until (and including) the first
entry on which the visitor returns `false` — after which no further pair of
that shard or any later shard is visited; if the visitor always accepts,
every entry is visited, and in a well-formed map the visited keys are
pairwise distinct; `Range` never modifies the map. -/
theorem range_snapshot_iteration {V : Type} (m : Map V)
    (f : String → V → Bool) (hwf : m.WF) :
    (m.Range f).2 = m
    ∧ (m.Range f).1
        = m.entries.takeWhile (fun p => f p.1 p.2)
          ++ (m.entries.dropWhile (fun p => f p.1 p.2)).take 1
    ∧ ((∀ p ∈ m.entries, f p.1 p.2 = true) → (m.Range f).1 = m.entries)
    ∧ (m.entries.map Prod.fst).Nodup := by
  refine ⟨rfl, rangeShards_eq f m.datas, ?_, WF_entries_keys_nodup m hwf⟩
  intro hall
  have h2 : (m.Range f).1
      = m.entries.takeWhile (fun p => f p.1 p.2)
        ++ (m.entries.dropWhile (fun p => f p.1 p.2)).take 1 :=
    rangeShards_eq f m.datas
  rw [h2, takeWhile_eq_self_of_all _ _ hall, dropWhile_eq_nil_of_all _ _ hall]
  simp

/-- Witness for **C8**: on the two-shard map `{"bb" ↦ 2, "a" ↦ 1}`, an
always-true visitor is invoked on both entries in shard order, and a
visitor rejecting values above 1 stops at the first entry; the map is
returned unchanged. -/
theorem range_snapshot_iteration_witness :
    (((New Nat (fun s => s.length) [2]).Set "a" 1).Set "bb" 2).WF
    ∧ ((((New Nat (fun s => s.length) [2]).Set "a" 1).Set "bb" 2).Range
        (fun _ _ => true)).1 = [("bb", 2), ("a", 1)]
    ∧ ((((New Nat (fun s => s.length) [2]).Set "a" 1).Set "bb" 2).Range
        (fun _ v => decide (v ≤ 1))).1 = [("bb", 2)]
    ∧ ((((New Nat (fun s => s.length) [2]).Set "a" 1).Set "bb" 2).Range
        (fun _ v => decide (v ≤ 1))).2
      = ((New Nat (fun s => s.length) [2]).Set "a" 1).Set "bb" 2 := by
  have h1 := range_snapshot_iteration
    (((New Nat (fun s => s.length) [2]).Set "a" 1).Set "bb" 2)
    (fun _ _ => true) (by decide)
  have h2 := range_snapshot_iteration
    (((New Nat (fun s => s.length) [2]).Set "a" 1).Set "bb" 2)
    (fun _ v => decide (v ≤ 1)) (by decide)
  exact ⟨by decide, (h1.2.2.1 (by decide)).trans (by decide),
    h2.2.1.trans (by decide), h2.1⟩

end HMap
